import Mathlib

/-!
Shallow embedding of `src/misc.go` (package `drive`) and proofs about it.

The file embeds, faithfully to the Go source:
  * `commonPrefix` (misc.go lines 154–194), over byte strings;
  * the memoization layer of `memoizeBytes` (lines 62–87);
  * `remotePathSplit` (lines 144–152);
  * `toDesktopEntry` / `serializeAsDesktopEntry` (lines 119–142);
  * `readCommentedFile` (lines 196–219).
-/

namespace Drive

/-- Go strings are byte sequences and `commonPrefix` indexes single bytes
(`other[i]`, `min[i]`), so its arguments are embedded as lists of byte
values. -/
abbrev GoStr := List Nat

/-- Byte values of an ASCII string literal (every concrete example input is
ASCII, where the UTF-8 bytes coincide with the code points). -/
def asciiBytes (s : String) : GoStr := s.toList.map (fun c => c.toNat)

/-- The scan of misc.go lines 163–174: walk the values from index 1 with the
current shortest string `mn` and its index `mnIdx`; `i` is the index of the
head of the remaining list. Meeting an empty string models the early
`return ""` and yields `none`; the length comparison is strict, so on ties
the first occurrence wins. -/
def findMin : List GoStr → GoStr → Nat → Nat → Option (GoStr × Nat)
  | [], mn, mnIdx, _ => some (mn, mnIdx)
  | st :: rest, mn, mnIdx, i =>
    if st = [] then none
    else if st.length < mn.length then findMin rest st i (i + 1)
    else findMin rest mn mnIdx (i + 1)

/-- Misc.go lines 179–187: does some value other than the chosen shortest one
disagree with it at byte position `i` (`other[i] != min[i]` with
`j != minIndex`)? In every reachable state `i` is below the length of each
value, so the default of `getD` is never consulted. -/
def hasMismatch (values : List GoStr) (mnIdx : Nat) (mn : GoStr) (i : Nat) : Bool :=
  values.enum.any (fun p => p.1 != mnIdx && p.2.getD i 0 != mn.getD i 0)

/-- Misc.go lines 176–192: `prefix := make([]byte, minLen)` allocates
`minLen` zero bytes; position `i` is overwritten with `min[i]` until the
first mismatching position, and once `matchOn` turns false the remaining
cells keep their zero value. `fuel` counts the cells still to visit
(`minLen - i`). -/
def scanPrefix (values : List GoStr) (mnIdx : Nat) (mn : GoStr) : Nat → Nat → GoStr
  | _, 0 => []
  | i, fuel + 1 =>
    if hasMismatch values mnIdx mn i then List.replicate (fuel + 1) 0
    else mn.getD i 0 :: scanPrefix values mnIdx mn (i + 1) fuel

/-- Misc.go lines 154–194, `commonPrefix(values ...string) string`. -/
def commonPrefix (values : List GoStr) : GoStr :=
  match values with
  | [] => []
  | v0 :: rest =>
    match findMin rest v0 0 1 with
    | none => []
    | some (mn, mnIdx) => scanPrefix (v0 :: rest) mnIdx mn 0 mn.length

/-- The cache built by `memoizeBytes` (misc.go line 63): a Go map from the
raw `int64` input to the formatted string, embedded as an association list
in which the most recent insertion shadows older entries. -/
abbrev ByteCache := List (Int × String)

/-- Go map lookup `cache[b]` on the embedded cache. -/
def cacheLookup : ByteCache → Int → Option String
  | [], _ => none
  | (k, v) :: rest, b => if k = b then some v else cacheLookup rest b

/-- One call of the closure returned by `memoizeBytes` (misc.go lines
67–86): look the input up in the cache; on a hit return the cached string
unchanged, on a miss compute the description, store it under the raw input
and return it. The numeric formatting of lines 73–83 (float64 divisions and
`%.2f`) is the parameter `descr`: the memoization layer never inspects it,
so the theorems below hold for the actual float computation as well. -/
def memoizeCall (descr : Int → String) (cache : ByteCache) (b : Int) :
    String × ByteCache :=
  match cacheLookup cache b with
  | some d => (d, cache)
  | none => (descr b, (b, descr b) :: cache)

/-- Go `strings.Split(p, "/")` for the one-character separator used by
`remotePathSplit`: cut the character list at every separator, keeping empty
segments; the result is never empty (`Split("", "/")` is `[""]`). -/
def splitOnChar (sep : Char) : List Char → List (List Char)
  | [] => [[]]
  | c :: rest =>
    match splitOnChar sep rest with
    | [] => [[]]
    | h :: t => if c = sep then [] :: h :: t else (c :: h) :: t

/-- Go `strings.Join(parts, sep)` for a one-character separator. -/
def joinSep (sep : Char) : List (List Char) → List Char
  | [] => []
  | [x] => x
  | x :: y :: rest => x ++ sep :: joinSep sep (y :: rest)

/-- Misc.go lines 144–152, `remotePathSplit(p string) (dir, base string)`:
split on `/`, rejoin `sp[:spl-1]` as the directory and `sp[spl-1:]` as the
base. -/
def remotePathSplit (p : String) : String × String :=
  let sp := splitOnChar '/' p.toList
  let spl := sp.length
  (String.mk (joinSep '/' (sp.take (spl - 1))),
   String.mk (joinSep '/' (sp.drop (spl - 1))))

/-- Misc.go line 27: `MimeTypeJoiner = "-"`. -/
def MimeTypeJoiner : String := "-"

/-- Modelled from the spec: `UnescapedPathSep` is declared outside this
file; the spec says the icon replaces "every path-separator character"
in a content-type "e.g., `type/subtype`", so the separator is `/`. -/
def UnescapedPathSep : Char := '/'

/-- The fields of the `File` struct (declared outside this file) that
`toDesktopEntry` reads: only `f.Name`. -/
structure File where
  Name : String

/-- The `urlMimeTypeExt` struct (declared outside this file) as
`toDesktopEntry` and `serializeAsDesktopEntry` read it. -/
structure UrlMimeTypeExt where
  url : String
  mimeType : String
  ext : String

/-- Misc.go lines 32–36, the `desktopEntry` struct. -/
structure DesktopEntry where
  name : String
  url : String
  icon : String

/-- Misc.go lines 91–93, `sepJoin(sep string, args ...string)`, with the
semantics of Go `strings.Join`: the separator stands between consecutive
elements. -/
def sepJoin (sep : String) : List String → String
  | [] => ""
  | [a] => a
  | a :: rest => a ++ sep ++ sepJoin sep rest

/-- Misc.go lines 119–129, `(f *File) toDesktopEntry`: the name gains a
`-<ext>` tail only when the extension is non-empty; the icon starts as the
raw mime type. -/
def toDesktopEntry (f : File) (urlMExt : UrlMimeTypeExt) : DesktopEntry :=
  let name := if urlMExt.ext ≠ "" then sepJoin "-" [f.Name, urlMExt.ext] else f.Name
  { name := name, url := urlMExt.url, icon := urlMExt.mimeType }

/-- Go `strings.Replace(s, UnescapedPathSep, MimeTypeJoiner, -1)` (misc.go
line 138): the pattern is the single character `/`, so replacing every
occurrence is a character map. -/
def replaceSep (s : String) : String :=
  String.mk (s.toList.map (fun c => if c = UnescapedPathSep then '-' else c))

/-- Misc.go lines 131–142, the bytes `serializeAsDesktopEntry` writes to the
destination file (the `fmt.Fprintf` format string with its four arguments).
`linkKey` is the constant type marker `LinkKey`, declared outside this file;
its value is left abstract. -/
def serializeAsDesktopEntry (linkKey : String) (f : File)
    (urlMExt : UrlMimeTypeExt) : String :=
  let deskEnt := toDesktopEntry f urlMExt
  let icon := replaceSep deskEnt.icon
  "[Desktop Entry]\nIcon=" ++ icon ++ "\nName=" ++ deskEnt.name ++
    "\nType=" ++ linkKey ++ "\nURL=" ++ deskEnt.url ++ "\n"

/-- Go `bufio.ScanLines` helper `dropCR`: strip one trailing carriage
return. -/
def dropCR (l : List Char) : List Char :=
  if l.getLast? = some '\r' then l.dropLast else l

/-- The lines `bufio.Scanner` with `ScanLines` yields (misc.go lines
204–210): tokens end at each newline, which is not part of the token, a
trailing carriage return is stripped, and a final token without a newline is
yielded only when non-empty. `acc` holds the current token reversed. -/
def scanLinesAux (acc : List Char) : List Char → List (List Char)
  | [] => if acc = [] then [] else [dropCR acc.reverse]
  | c :: rest =>
    if c = '\n' then dropCR acc.reverse :: scanLinesAux [] rest
    else scanLinesAux (c :: acc) rest

/-- All lines of a file content, as `bufio.Scanner` yields them. -/
def scanLines (content : List Char) : List (List Char) :=
  scanLinesAux [] content

/-- Go `strings.Trim(s, cutset)` for a one-character cutset: drop that
character from both ends. -/
def trimChar (ch : Char) (l : List Char) : List Char :=
  ((l.dropWhile (· = ch)).reverse.dropWhile (· = ch)).reverse

/-- Misc.go lines 211–212: `strings.Trim(line, " ")` then
`strings.Trim(line, "\n")`. -/
def processedLine (l : List Char) : List Char :=
  trimChar '\n' (trimChar ' ' l)

/-- Misc.go lines 206–217, the scan loop of `readCommentedFile`: trim each
line, skip it when it starts with the comment marker or is empty, append it
otherwise. -/
def readLoop (comment : List Char) : List (List Char) → List (List Char)
  | [] => []
  | l :: rest =>
    let line := processedLine l
    if comment.isPrefixOf line || line.length < 1 then readLoop comment rest
    else line :: readLoop comment rest

/-- The clauses `readCommentedFile` accumulates from a file content. -/
def readCommentedFileLines (content comment : String) : List String :=
  (readLoop comment.toList (scanLines content.toList)).map String.mk

/-- Misc.go lines 196–219, `readCommentedFile(p, comment string)` including
its fallible open: `openResult` is `.error e` when `os.Open` fails with
error `e` and `.ok content` when it succeeds on a file holding `content`.
The Go function returns the pair `(clauses, err)`; on a failed open the
clauses are `nil` and the open error is passed through, otherwise the loop
runs and `err` stays `nil`. -/
def readCommentedFile (openResult : Except String String) (comment : String) :
    List String × Option String :=
  match openResult with
  | .error e => ([], some e)
  | .ok content => (readCommentedFileLines content comment, none)

/-! ### Lemmas about `commonPrefix` -/

lemma findMin_eq_none (rest : List GoStr) :
    ∀ (mn : GoStr) (mnIdx i : Nat), findMin rest mn mnIdx i = none ↔ [] ∈ rest := by
  induction rest with
  | nil => intro mn mnIdx i; simp [findMin]
  | cons st rest ih =>
    intro mn mnIdx i
    by_cases h : st = []
    · simp [findMin, h]
    · by_cases h2 : st.length < mn.length <;>
        simp [findMin, h, h2, ih, Ne.symm h]

lemma findMin_eq_some (rest : List GoStr) :
    ∀ (mn : GoStr) (mnIdx i : Nat) (m : GoStr) (mi : Nat),
      findMin rest mn mnIdx i = some (m, mi) →
        (m = mn ∨ m ∈ rest) ∧ m.length ≤ mn.length ∧
          ∀ s ∈ rest, m.length ≤ s.length := by
  induction rest with
  | nil =>
    intro mn mnIdx i m mi h
    simp [findMin] at h
    simp [h.1]
  | cons st rest ih =>
    intro mn mnIdx i m mi h
    by_cases hst : st = []
    · simp [findMin, hst] at h
    · by_cases h2 : st.length < mn.length
      · simp only [findMin, if_neg hst, if_pos h2] at h
        obtain ⟨hmem, hlen, hall⟩ := ih st i (i + 1) m mi h
        refine ⟨Or.inr (by cases hmem with
          | inl e => exact e ▸ List.mem_cons_self st rest
          | inr e => exact List.mem_cons_of_mem st e), le_of_lt (lt_of_le_of_lt hlen h2), ?_⟩
        intro s hs
        cases List.mem_cons.mp hs with
        | inl e => exact e ▸ hlen
        | inr e => exact hall s e
      · simp only [findMin, if_neg hst, if_neg h2] at h
        obtain ⟨hmem, hlen, hall⟩ := ih mn mnIdx (i + 1) m mi h
        refine ⟨(by cases hmem with
          | inl e => exact Or.inl e
          | inr e => exact Or.inr (List.mem_cons_of_mem st e)), hlen, ?_⟩
        intro s hs
        cases List.mem_cons.mp hs with
        | inl e => exact e ▸ le_trans hlen (le_of_not_lt h2)
        | inr e => exact hall s e

lemma snd_mem_of_mem_enumFrom (l : List GoStr) :
    ∀ (n : Nat) (p : Nat × GoStr), p ∈ l.enumFrom n → p.2 ∈ l := by
  induction l with
  | nil => intro n p h; simp [List.enumFrom] at h
  | cons x l ih =>
    intro n p h
    simp only [List.enumFrom, List.mem_cons] at h
    cases h with
    | inl e => simp [e]
    | inr e => exact List.mem_cons_of_mem x (ih (n + 1) p e)

lemma hasMismatch_witness (values : List GoStr) (mnIdx : Nat) (mn : GoStr) (i : Nat)
    (h : hasMismatch values mnIdx mn i = true) :
    ∃ a ∈ values, a.getD i 0 ≠ mn.getD i 0 := by
  simp only [hasMismatch, List.any_eq_true] at h
  obtain ⟨p, hp, hcond⟩ := h
  simp only [Bool.and_eq_true, bne_iff_ne, ne_eq] at hcond
  exact ⟨p.2, snd_mem_of_mem_enumFrom values 0 p hp, hcond.2⟩

lemma scanPrefix_struct (values : List GoStr) (mnIdx : Nat) (mn : GoStr) :
    ∀ (fuel i : Nat), i + fuel ≤ mn.length →
      ∃ k ≤ fuel,
        scanPrefix values mnIdx mn i fuel =
          (mn.drop i).take k ++ List.replicate (fuel - k) 0 ∧
        (k < fuel → hasMismatch values mnIdx mn (i + k) = true) := by
  intro fuel
  induction fuel with
  | zero => intro i _; exact ⟨0, le_refl 0, by simp [scanPrefix], by omega⟩
  | succ f ih =>
    intro i hle
    by_cases hm : hasMismatch values mnIdx mn i = true
    · refine ⟨0, Nat.zero_le _, ?_, fun _ => by simpa using hm⟩
      simp [scanPrefix, hm]
    · obtain ⟨k, hk, heq, hmis⟩ := ih (i + 1) (by omega)
      have hi : i < mn.length := by omega
      refine ⟨k + 1, by omega, ?_, ?_⟩
      · have hdrop : mn.drop i = mn.get ⟨i, hi⟩ :: mn.drop (i + 1) :=
          List.drop_eq_getElem_cons hi
        have hget : mn.getD i 0 = mn.get ⟨i, hi⟩ := by
          simp [List.getD_eq_getElem?_getD, List.getElem?_eq_getElem hi]
        simp only [scanPrefix, hm, if_false, Bool.false_eq_true, heq, hdrop, hget,
          List.take_succ_cons, Nat.succ_sub_succ]
        simp
      · intro hlt
        have := hmis (by omega)
        have harith : i + 1 + k = i + (k + 1) := by omega
        simpa [harith] using this

/-- C1: the claim says `commonPrefix` returns the shortest argument cut at
the first mismatching byte position, so that
`commonPrefix("abcdef", "abcxyz", "abc123")` is `"abc"`. The code instead
returns the full `minLen`-byte buffer, so the call yields the six-byte
string `"abc\x00\x00\x00"` (bytes 97, 98, 99, 0, 0, 0), not `"abc"`. -/
theorem commonPrefix_abc_not_truncated :
    commonPrefix [asciiBytes "abcdef", asciiBytes "abcxyz", asciiBytes "abc123"] =
        asciiBytes "abc" ++ [0, 0, 0] ∧
      asciiBytes "abc" ++ [0, 0, 0] ≠ asciiBytes "abc" := by
  constructor
  · rfl
  · decide

/-- C2: with at least one argument, `commonPrefix` returns a string whose
length equals the length of the shortest argument; it consists of the
shortest argument's first `k` bytes followed by NUL (0) bytes, where a
position `k` short of the end is a genuine byte-wise disagreement between
the shortest argument and some other argument. Empty arguments (early
return of `""`) are covered: `""` is then a shortest argument. -/
theorem commonPrefix_shortest_length_nul_padded (v0 : GoStr) (rest : List GoStr) :
    ∃ s ∈ v0 :: rest,
      (∀ t ∈ v0 :: rest, s.length ≤ t.length) ∧
      (commonPrefix (v0 :: rest)).length = s.length ∧
      ∃ k ≤ s.length,
        commonPrefix (v0 :: rest) = s.take k ++ List.replicate (s.length - k) 0 ∧
        (k < s.length → ∃ a ∈ v0 :: rest, a.getD k 0 ≠ s.getD k 0) := by
  cases h : findMin rest v0 0 1 with
  | none =>
    have hmem : [] ∈ rest := (findMin_eq_none rest v0 0 1).mp h
    refine ⟨[], List.mem_cons_of_mem v0 hmem, fun t _ => Nat.zero_le _, ?_, 0, le_refl 0, ?_, ?_⟩
    · simp [commonPrefix, h]
    · simp [commonPrefix, h]
    · intro hk; simp at hk
  | some pair =>
    obtain ⟨mn, mnIdx⟩ := pair
    obtain ⟨hmem, hlev0, hlerest⟩ := findMin_eq_some rest v0 0 1 mn mnIdx h
    have hmn : mn ∈ v0 :: rest := by
      cases hmem with
      | inl e => exact e ▸ List.mem_cons_self v0 rest
      | inr e => exact List.mem_cons_of_mem v0 e
    have hminimal : ∀ t ∈ v0 :: rest, mn.length ≤ t.length := by
      intro t ht
      cases List.mem_cons.mp ht with
      | inl e => exact e ▸ hlev0
      | inr e => exact hlerest t e
    have hcp : commonPrefix (v0 :: rest) = scanPrefix (v0 :: rest) mnIdx mn 0 mn.length := by
      simp [commonPrefix, h]
    obtain ⟨k, hk, heq, hmis⟩ :=
      scanPrefix_struct (v0 :: rest) mnIdx mn mn.length 0 (by omega)
    simp only [List.drop_zero, Nat.zero_add] at heq hmis
    refine ⟨mn, hmn, hminimal, ?_, k, hk, ?_, ?_⟩
    · rw [hcp, heq]
      simp [List.length_take, List.length_replicate]
      omega
    · rw [hcp, heq]
    · intro hlt
      exact hasMismatch_witness (v0 :: rest) mnIdx mn k (hmis hlt)

/-- Witness for C2 at a concrete input. -/
theorem commonPrefix_shortest_length_nul_padded_witness :
    ∃ s ∈ [asciiBytes "ab", asciiBytes "ac"],
      (∀ t ∈ [asciiBytes "ab", asciiBytes "ac"], s.length ≤ t.length) ∧
      (commonPrefix [asciiBytes "ab", asciiBytes "ac"]).length = s.length ∧
      ∃ k ≤ s.length,
        commonPrefix [asciiBytes "ab", asciiBytes "ac"] =
          s.take k ++ List.replicate (s.length - k) 0 ∧
        (k < s.length →
          ∃ a ∈ [asciiBytes "ab", asciiBytes "ac"], a.getD k 0 ≠ s.getD k 0) :=
  commonPrefix_shortest_length_nul_padded (asciiBytes "ab") [asciiBytes "ac"]

/-- C8: `commonPrefix` with zero arguments returns the empty string, and
whenever some argument is the empty string the result is the empty
string. -/
theorem commonPrefix_empty_cases :
    commonPrefix [] = [] ∧
      ∀ values : List GoStr, [] ∈ values → commonPrefix values = [] := by
  refine ⟨rfl, ?_⟩
  intro values hmem
  match values with
  | v0 :: rest =>
    cases h : findMin rest v0 0 1 with
    | none => simp [commonPrefix, h]
    | some pair =>
      obtain ⟨mn, mnIdx⟩ := pair
      cases List.mem_cons.mp hmem with
      | inr hr =>
        have hnone : findMin rest v0 0 1 = none := (findMin_eq_none rest v0 0 1).mpr hr
        rw [hnone] at h
        simp at h
      | inl hv =>
        have hlen : mn.length ≤ v0.length := (findMin_eq_some rest v0 0 1 mn mnIdx h).2.1
        have hz : mn.length = 0 := by rw [← hv] at hlen; simpa using hlen
        simp [commonPrefix, h, hz, scanPrefix]

/-- Witness for C8 at a concrete input. -/
theorem commonPrefix_empty_cases_witness :
    commonPrefix [[97], []] = [] :=
  commonPrefix_empty_cases.2 [[97], []] (by simp)

/-! ### Memoization -/

/-- C9: calling the memoized formatter twice with the same input returns
identical strings; after the first call the result sits in the cache keyed
on the raw input, the second call returns it without touching the cache,
and existing cache entries survive every call (the cache is never
cleared). -/
theorem memoizeCall_memoized (descr : Int → String) (cache : ByteCache) (b : Int) :
    (memoizeCall descr (memoizeCall descr cache b).2 b).1 =
        (memoizeCall descr cache b).1 ∧
      cacheLookup (memoizeCall descr cache b).2 b =
        some (memoizeCall descr cache b).1 ∧
      (memoizeCall descr (memoizeCall descr cache b).2 b).2 =
        (memoizeCall descr cache b).2 ∧
      ∀ k v, cacheLookup cache k = some v →
        cacheLookup (memoizeCall descr cache b).2 k = some v := by
  cases h : cacheLookup cache b with
  | some d =>
    refine ⟨?_, ?_, ?_, ?_⟩ <;> simp [memoizeCall, h]
  | none =>
    have hl : cacheLookup ((b, descr b) :: cache) b = some (descr b) := by
      simp [cacheLookup]
    refine ⟨?_, ?_, ?_, ?_⟩
    · simp [memoizeCall, h, hl]
    · simp [memoizeCall, h, hl]
    · simp [memoizeCall, h, hl]
    · intro k v hkv
      have hkb : k ≠ b := by
        intro e; rw [e, h] at hkv; exact Option.noConfusion hkv
      simp [memoizeCall, h, cacheLookup, Ne.symm hkb, hkv]

/-- Witness for C9 at a concrete formatter, cache and input. -/
theorem memoizeCall_memoized_witness :
    cacheLookup (memoizeCall (fun _ => "1.00KB") [((0 : Int), "0.00B")] 1024).2 0 =
      some "0.00B" :=
  (memoizeCall_memoized (fun _ => "1.00KB") [((0 : Int), "0.00B")] 1024).2.2.2
    0 "0.00B" rfl

/-! ### Path splitting -/

lemma splitOnChar_ne_nil (sep : Char) : ∀ l : List Char, splitOnChar sep l ≠ [] := by
  intro l
  cases l with
  | nil => simp [splitOnChar]
  | cons c rest =>
    simp only [splitOnChar]
    cases splitOnChar sep rest with
    | nil => simp
    | cons a t => by_cases hc : c = sep <;> simp [hc]

lemma drop_length_sub_one :
    ∀ l : List (List Char), l ≠ [] → l.drop (l.length - 1) = [l.getLastD []] := by
  intro l
  induction l with
  | nil => intro h; exact absurd rfl h
  | cons x t ih =>
    intro _
    cases t with
    | nil => simp
    | cons y r =>
      have h1 : (x :: y :: r).length - 1 = ((y :: r).length - 1) + 1 := by
        simp
      rw [h1, List.drop_succ_cons, ih (by simp)]
      simp [List.getLastD_cons]

/-- C7: `remotePathSplit` splits on `/`: the directory is all components but
the last rejoined with `/`, the base is the last component, with no
normalization; `remotePathSplit "a/b/c" = ("a/b", "c")`,
`remotePathSplit "onlyname" = ("", "onlyname")` and
`remotePathSplit "a/" = ("a", "")`. -/
theorem remotePathSplit_spec :
    (∀ p : String,
      (remotePathSplit p).1 =
        String.mk (joinSep '/' ((splitOnChar '/' p.toList).dropLast)) ∧
      (remotePathSplit p).2 =
        String.mk ((splitOnChar '/' p.toList).getLastD [])) ∧
    remotePathSplit "a/b/c" = ("a/b", "c") ∧
    remotePathSplit "onlyname" = ("", "onlyname") ∧
    remotePathSplit "a/" = ("a", "") := by
  refine ⟨?_, by decide, by decide, by decide⟩
  intro p
  constructor
  · simp only [remotePathSplit]
    rw [← List.dropLast_eq_take]
  · simp only [remotePathSplit]
    rw [drop_length_sub_one _ (splitOnChar_ne_nil '/' p.toList)]
    rfl

/-! ### Desktop entries -/

/-- C4: `serializeAsDesktopEntry` writes exactly the section header line and
the four `key=value` lines Icon, Name, Type, URL in that order; the name is
`<display name>-<extension>` when the extension is non-empty and the display
name unchanged otherwise, and the icon is the content-type with every path
separator replaced by `-`; name `"Doc"`, extension `"pdf"` and content-type
`"application/pdf"` yield name field `"Doc-pdf"` and icon field
`"application-pdf"`. -/
theorem serializeAsDesktopEntry_format :
    (∀ linkKey name url mime ext : String,
      serializeAsDesktopEntry linkKey ⟨name⟩ ⟨url, mime, ext⟩ =
        "[Desktop Entry]\nIcon=" ++ replaceSep mime ++ "\nName=" ++
          (if ext ≠ "" then name ++ "-" ++ ext else name) ++
          "\nType=" ++ linkKey ++ "\nURL=" ++ url ++ "\n") ∧
    (toDesktopEntry ⟨"Doc"⟩ ⟨"http://x/y", "application/pdf", "pdf"⟩).name =
      "Doc-pdf" ∧
    replaceSep "application/pdf" = "application-pdf" ∧
    serializeAsDesktopEntry "Link" ⟨"Doc"⟩ ⟨"http://x/y", "application/pdf", "pdf"⟩ =
      "[Desktop Entry]\nIcon=application-pdf\nName=Doc-pdf\nType=Link\nURL=http://x/y\n" := by
  refine ⟨?_, by decide, by decide, by decide⟩
  intro linkKey name url mime ext
  by_cases h : ext = "" <;>
    simp [serializeAsDesktopEntry, toDesktopEntry, sepJoin, h]

/-! ### Commented files -/

lemma readLoop_eq_filter (comment : List Char) :
    ∀ lines : List (List Char),
      readLoop comment lines =
        (lines.map processedLine).filter
          (fun t => !(comment.isPrefixOf t) && !(t.isEmpty)) := by
  intro lines
  induction lines with
  | nil => rfl
  | cons l rest ih =>
    simp only [readLoop, List.map_cons, List.filter_cons]
    by_cases hp : comment.isPrefixOf (processedLine l)
    · simp [hp, ih]
    · by_cases he : (processedLine l).isEmpty
      · have hlen : (processedLine l).length < 1 := by
          rw [List.isEmpty_iff] at he
          simp [he]
        simp [hp, he, hlen, ih]
      · have hlen : ¬ (processedLine l).length < 1 := by
          cases hl : processedLine l with
          | nil => rw [hl] at he; simp [List.isEmpty] at he
          | cons x xs => simp
        simp [hp, he, hlen, ih]

/-- C5: `readCommentedFile` trims each scanned line, keeps exactly those
trimmed lines that are non-empty and do not start with the comment marker,
in file order; the content `"# comment\n\nkeep-this\n  \nkeep-that  \n"`
with marker `"#"` yields `["keep-this", "keep-that"]`. -/
theorem readCommentedFileLines_spec :
    (∀ content comment : String,
      readCommentedFileLines content comment =
        (((scanLines content.toList).map processedLine).filter
          (fun t => !(comment.toList.isPrefixOf t) && !(t.isEmpty))).map String.mk) ∧
    readCommentedFileLines "# comment\n\nkeep-this\n  \nkeep-that  \n" "#" =
      ["keep-this", "keep-that"] := by
  refine ⟨?_, by decide⟩
  intro content comment
  simp [readCommentedFileLines, readLoop_eq_filter]

/-- C6: `readCommentedFile` returns an error exactly when the open fails; a
failed open yields that failure and no lines, a successful open yields the
accumulated clauses and no error. -/
theorem readCommentedFile_error_exact (comment : String) :
    (∀ e, readCommentedFile (Except.error e) comment = ([], some e)) ∧
    ∀ content, readCommentedFile (Except.ok content) comment =
      (readCommentedFileLines content comment, none) :=
  ⟨fun _ => rfl, fun _ => rfl⟩

lemma readLoop_nil_comment : ∀ lines, readLoop ([] : List Char) lines = [] := by
  intro lines
  induction lines with
  | nil => rfl
  | cons l rest ih => simp [readLoop, List.isPrefixOf, ih]

/-- C10: with the empty string as comment marker, every trimmed line starts
with the marker, so a successfully opened file always yields no clauses and
no error. -/
theorem readCommentedFile_empty_marker (content : String) :
    readCommentedFile (Except.ok content) "" = ([], none) := by
  have h : ("" : String).toList = [] := rfl
  simp [readCommentedFile, readCommentedFileLines, h, readLoop_nil_comment]

end Drive
